import Mathlib

/-!
Verification of the `wtime` work-session ledger.

The development shallowly embeds the repository's `src/db.rs` and
`src/app.rs` (and the duplicated application code in `src/main.rs`).

Modelling conventions:
* Instants (`chrono::DateTime<Utc>`) are absolute points on a single
  timeline, modelled as unbounded `Int` (nanoseconds since the epoch,
  the precision at which `to_rfc3339` persists them).  Durations
  (`chrono::Duration`) are likewise `Int`.
* The SQLite table `Stamp (id INTEGER PRIMARY KEY ASC, datetime TEXT,
  in_out TEXT)` is modelled as a list of rows in insertion order
  (`rowid` order, the order a scan without `ORDER BY` yields).
  The `datetime` TEXT cell is modelled by its parse: `some t` stands
  for the canonical RFC3339 rendering of the instant `t` (chrono's
  `to_rfc3339` / `parse_from_rfc3339` round-trip exactly at persisted
  precision), `none` stands for text that fails to parse.  The
  `in_out` TEXT cell is kept as a real string, because the repository
  itself parses it (`InOut::from_str` in `db.rs`).
* Fallible Rust paths return an explicit outcome: `ok`, a returned
  `Err`, or `panicked` (the `.unwrap()` in `Stamp::get` /
  `Stamp::get_after` aborts instead of returning an error).
-/

namespace WTime

/-- Stamping direction, from `db.rs` (`enum InOut { In, Out }`). -/
inductive InOut
  | In
  | Out
deriving DecidableEq, Repr

/-- Output of `impl Display for InOut` in `db.rs`: `"In"` / `"Out"`. -/
def InOut.display : InOut → String
  | .In => "In"
  | .Out => "Out"

/-- Model of Rust `char::to_lowercase` restricted to ASCII, the alphabet
`InOut::from_str` actually distinguishes (Rust's Unicode lowering agrees
with ASCII lowering on ASCII input). -/
def lowerChar (c : Char) : Char :=
  if 'A' ≤ c ∧ c ≤ 'Z' then Char.ofNat (c.toNat + 32) else c

/-- Model of Rust `str::trim`: drop whitespace from both ends, at the
character-list level. -/
def trimChars (l : List Char) : List Char :=
  ((l.dropWhile Char.isWhitespace).reverse.dropWhile Char.isWhitespace).reverse

/-- `InOut::from_str` from `db.rs`: trim, lowercase, then match `"in"` /
`"out"`; anything else is a `ParseInOutError` (here `none`). -/
def InOut.fromStr (s : String) : Option InOut :=
  match (trimChars s.data).map lowerChar with
  | ['i', 'n'] => some InOut.In
  | ['o', 'u', 't'] => some InOut.Out
  | _ => none

/-- The `Stamp` struct of `db.rs`: id (0 before persistence), timestamp,
direction. -/
structure Stamp where
  id : Int
  date : Int
  in_out : InOut
deriving DecidableEq, Repr

/-- The `DbError` variants reachable in the modelled fragment:
`NoSuchEntry` (requested row absent) and `ParseError` (the persisted
RFC3339 text failed to parse). -/
inductive DbError
  | noSuchEntry
  | parseError
deriving DecidableEq, Repr

/-- One persisted row of the `Stamp` table.  `datetime` is the parse-model
of the TEXT cell (see the module docstring); `in_out` is the raw TEXT. -/
structure Row where
  id : Int
  datetime : Option Int
  in_out : String
deriving DecidableEq, Repr

/-- The persisted table, in `rowid` (insertion) order. -/
abbrev Db := List Row

/-- Result of running a fallible, possibly panicking Rust computation. -/
inductive Outcome (α : Type)
  | ok (a : α)
  | err (e : DbError)
  | panicked
deriving DecidableEq, Repr

/-- The row `Stamp::insert` writes for a stamp: canonical `to_rfc3339`
text for the date, `Display` text for the direction. -/
def Row.ofStamp (s : Stamp) : Row :=
  ⟨s.id, some s.date, s.in_out.display⟩

/-- Reading a row back into a `Stamp` (defined only for proofs; `getD`
defaults are never hit on well-formed rows). -/
def Row.toStamp (r : Row) : Stamp :=
  ⟨r.id, r.datetime.getD 0, (InOut.fromStr r.in_out).getD InOut.In⟩

/-- Modelled from the spec: the SQL predicate `datetime >= '...'` of
`Stamp::get_after` compares the TEXT cell with the canonical rendering of
the boundary instant; on canonical renderings this is chronological
comparison (spec §6 persists RFC3339 text).  A malformed cell is modelled
as not selected. -/
def Row.afterMatches (r : Row) (t : Int) : Bool :=
  match r.datetime with
  | some d => decide (t ≤ d)
  | none => false

/-- Modelled from the spec: `SELECT max(id) FROM Stamp` of `Stamp::last`
(spec §4.1: "max existing identity", empty table yields no row/NULL). -/
def maxId : Db → Option Int
  | [] => none
  | r :: rest =>
    match maxId rest with
    | none => some r.id
    | some m => some (max r.id m)

/-- `Stamp::get` from `db.rs`: `SELECT datetime, in_out FROM Stamp WHERE
id = {id}`.  An absent row is `NoSuchEntry`; a datetime that fails to
parse propagates a `ParseError` (the `?`); a direction that fails to
parse panics (the `.unwrap()`).  The returned stamp carries the requested
id. -/
def Stamp.get (db : Db) (i : Int) : Outcome Stamp :=
  match db.find? (fun r => r.id == i) with
  | none => .err .noSuchEntry
  | some r =>
    match r.datetime with
    | none => .err .parseError
    | some d =>
      match InOut.fromStr r.in_out with
      | none => .panicked
      | some dir => .ok ⟨i, d, dir⟩

/-- `Stamp::get_after` from `db.rs`: first row (in table order) whose
`datetime` text is `>=` the boundary; absent is `NoSuchEntry`; the
direction `.unwrap()` panics on malformed text.  The id is read from the
row. -/
def Stamp.get_after (db : Db) (t : Int) : Outcome Stamp :=
  match db.find? (fun r => r.afterMatches t) with
  | none => .err .noSuchEntry
  | some r =>
    match r.datetime with
    | none => .err .parseError
    | some d =>
      match InOut.fromStr r.in_out with
      | none => .panicked
      | some dir => .ok ⟨r.id, d, dir⟩

/-- `Stamp::insert` from `db.rs`: append the encoded row; SQLite assigns
the `INTEGER PRIMARY KEY` as max existing id + 1 (1 on an empty table —
modelled from the spec §4.1, the store being the external collaborator)
and `last_insert_rowid()` writes it back into the stamp.  Returns the
updated table and the identity-bearing stamp. -/
def Stamp.insert (db : Db) (s : Stamp) : Db × Stamp :=
  let newId : Int :=
    match maxId db with
    | none => 1
    | some m => m + 1
  let s' : Stamp := ⟨newId, s.date, s.in_out⟩
  (db ++ [Row.ofStamp s'], s')

/-- Result of a Rust computation that returns a plain value but may
panic on the way (the accessors built on `.ok()`). -/
inductive PanicOr (α : Type)
  | ret (a : α)
  | panicked
deriving DecidableEq, Repr

/-- `Stamp::last` from `db.rs`: find the max id, then fetch that row;
every error on the way is discarded into `None` by `.ok()?` / `.ok()`,
but the direction `.unwrap()` inside `Stamp::get` still panics. -/
def Stamp.last (db : Db) : PanicOr (Option Stamp) :=
  match maxId db with
  | none => .ret none
  | some m =>
    match Stamp.get db m with
    | .ok s => .ret (some s)
    | .err _ => .ret none
    | .panicked => .panicked

/-- `Stamp::first` from `db.rs`: literally `Self::get(conn, 1).ok()`. -/
def Stamp.first (db : Db) : PanicOr (Option Stamp) :=
  match Stamp.get db 1 with
  | .ok s => .ret (some s)
  | .err _ => .ret none
  | .panicked => .panicked

/-- `Stamp::previous` from `db.rs`: `Self::get(conn, self.id - 1).ok()`. -/
def Stamp.previous (db : Db) (s : Stamp) : PanicOr (Option Stamp) :=
  match Stamp.get db (s.id - 1) with
  | .ok s' => .ret (some s')
  | .err _ => .ret none
  | .panicked => .panicked

/-- `Stamp::check_in`: fresh in-memory stamp, id 0, direction In; `now`
is the ambient clock value. -/
def Stamp.check_in (now : Int) : Stamp :=
  ⟨0, now, InOut.In⟩

/-- `Stamp::check_out`: fresh in-memory stamp, id 0, direction Out. -/
def Stamp.check_out (now : Int) : Stamp :=
  ⟨0, now, InOut.Out⟩

lemma find?_id_mem {db : Db} {i : Int} {r : Row}
    (h : db.find? (fun x => x.id == i) = some r) : ∃ x ∈ db, x.id = i := by
  have hm := List.find?_some h
  have hmem := List.mem_of_find?_eq_some h
  exact ⟨r, hmem, by simpa using hm⟩

lemma get_ok_mem {db : Db} {i : Int} {s : Stamp}
    (h : Stamp.get db i = .ok s) : ∃ x ∈ db, x.id = i := by
  unfold Stamp.get at h
  cases hf : db.find? (fun r => r.id == i) with
  | none => rw [hf] at h; exact absurd h (by simp)
  | some r => exact find?_id_mem hf

lemma filter_ge_length_mono (db : Db) (i : Int) :
    (db.filter (fun r => decide (i + 1 ≤ r.id))).length ≤
      (db.filter (fun r => decide (i ≤ r.id))).length := by
  induction db with
  | nil => simp
  | cons a l ih =>
    by_cases h1 : i + 1 ≤ a.id
    · have h0 : i ≤ a.id := by omega
      simp only [List.filter, decide_eq_true h1, decide_eq_true h0]
      simpa using ih
    · by_cases h0 : i ≤ a.id
      · simp only [List.filter, decide_eq_false h1, decide_eq_true h0,
          List.length_cons]
        omega
      · simp only [List.filter, decide_eq_false h1, decide_eq_false h0]
        exact ih

lemma filter_ge_length_lt (db : Db) (i : Int) (hex : ∃ r ∈ db, r.id = i) :
    (db.filter (fun r => decide (i + 1 ≤ r.id))).length <
      (db.filter (fun r => decide (i ≤ r.id))).length := by
  induction db with
  | nil => simp at hex
  | cons a l ih =>
    obtain ⟨r, hmem, hid⟩ := hex
    rcases List.mem_cons.mp hmem with h | h
    · have hid' : a.id = i := h ▸ hid
      have h1 : ¬ (i + 1 ≤ a.id) := by omega
      have h0 : i ≤ a.id := by omega
      simp only [List.filter, decide_eq_false h1, decide_eq_true h0,
        List.length_cons]
      have := filter_ge_length_mono l i
      omega
    · have hl := ih ⟨r, h, hid⟩
      by_cases h1 : i + 1 ≤ a.id
      · have h0 : i ≤ a.id := by omega
        simp only [List.filter, decide_eq_true h1, decide_eq_true h0,
          List.length_cons]
        omega
      · by_cases h0 : i ≤ a.id
        · simp only [List.filter, decide_eq_false h1, decide_eq_true h0,
            List.length_cons]
          omega
        · simp only [List.filter, decide_eq_false h1, decide_eq_false h0]
          exact hl

/-- The sequence of stamps `StampIterator` (from `db.rs`) yields when
started at index `i`: `Stamp::get` the current index, step to `id + 1`
on success, end the sequence on any `Err` (the iterator's `if let Ok`),
propagate a panic.  Terminates because each successful step consumes one
of the finitely many rows with id ≥ current index. -/
def Stamp.collectFrom (db : Db) (i : Int) : Outcome (List Stamp) :=
  match h : Stamp.get db i with
  | .ok s =>
    match Stamp.collectFrom db (i + 1) with
    | .ok rest => .ok (s :: rest)
    | .err e => .err e
    | .panicked => .panicked
  | .err _ => .ok []
  | .panicked => .panicked
termination_by (db.filter (fun r => decide (i ≤ r.id))).length
decreasing_by
  exact filter_ge_length_lt db i (get_ok_mem (by assumption))

/-- Result of an application command: the mutated ledger on success, the
error message plus the untouched ledger on a returned `Err`, or a panic. -/
inductive AppResult
  | ok (db : Db)
  | err (msg : String) (db : Db)
  | panicked
deriving DecidableEq, Repr

/-- Message of the `AlreadyCheckedIn` rejection in `app.rs`. -/
def checkinMsg : String := "Already checked in ! (Do you meant to check-out ?)"

/-- Message of the `AlreadyCheckedOut` rejection in `app.rs`. -/
def checkoutMsg : String := "Already checked out ! (Do you meant to check-in ?)"

namespace App

/-- `App::do_checkin` from `app.rs`: reject when the last stamp is a
check-in, otherwise insert a fresh check-in stamp.  An empty ledger
(`Stamp::last` = `None`) falls through the guard and inserts. -/
def do_checkin (db : Db) (now : Int) : AppResult :=
  match Stamp.last db with
  | .panicked => .panicked
  | .ret (some l) =>
    if l.in_out = InOut.In then .err checkinMsg db
    else .ok (Stamp.insert db (Stamp.check_in now)).1
  | .ret none => .ok (Stamp.insert db (Stamp.check_in now)).1

/-- `App::do_checkout` from `app.rs`: reject when the last stamp is a
check-out, otherwise insert a fresh check-out stamp and look up its
predecessor (`stamp.previous`) for the printed work-time report.  An
empty ledger falls through the guard and inserts. -/
def do_checkout (db : Db) (now : Int) : AppResult :=
  match Stamp.last db with
  | .panicked => .panicked
  | .ret (some l) =>
    if l.in_out = InOut.Out then .err checkoutMsg db
    else
      let p := Stamp.insert db (Stamp.check_out now)
      match Stamp.previous p.1 p.2 with
      | .panicked => .panicked
      | .ret _ => .ok p.1
  | .ret none =>
    let p := Stamp.insert db (Stamp.check_out now)
    match Stamp.previous p.1 p.2 with
    | .panicked => .panicked
    | .ret _ => .ok p.1

/-- The accumulation loop of `App::get_total_from` in `app.rs`: running
total plus `possible_last`, adding `stamp.date - last.date` exactly for
an In-then-Out adjacent pair. -/
def totalLoop (total : Int) (possible_last : Option Stamp) : List Stamp → Int
  | [] => total
  | s :: rest =>
    match possible_last with
    | some l =>
      if l.in_out = InOut.In ∧ s.in_out = InOut.Out then
        totalLoop (total + (s.date - l.date)) (some s) rest
      else
        totalLoop total (some s) rest
    | none => totalLoop total (some s) rest

/-- `App::get_total_from` from `app.rs`: seed with `Stamp::get_after`
(zero total when it errs), then run the iterator from the seed's id and
accumulate with `totalLoop`. -/
def get_total_from (db : Db) (t : Int) : Outcome Int :=
  match Stamp.get_after db t with
  | .err _ => .ok 0
  | .panicked => .panicked
  | .ok first =>
    match Stamp.collectFrom db first.id with
    | .ok stamps => .ok (totalLoop 0 none stamps)
    | .err e => .err e
    | .panicked => .panicked

end App

namespace MainApp

/-- The accumulation loop of the duplicated `App::get_total_from` in
`main.rs` (verbatim copy of the one in `app.rs`). -/
def totalLoop (total : Int) (possible_last : Option Stamp) : List Stamp → Int
  | [] => total
  | s :: rest =>
    match possible_last with
    | some l =>
      if l.in_out = InOut.In ∧ s.in_out = InOut.Out then
        totalLoop (total + (s.date - l.date)) (some s) rest
      else
        totalLoop total (some s) rest
    | none => totalLoop total (some s) rest

/-- `App::get_total_from` as duplicated in `main.rs` (lines 27-50). -/
def get_total_from (db : Db) (t : Int) : Outcome Int :=
  match Stamp.get_after db t with
  | .err _ => .ok 0
  | .panicked => .panicked
  | .ok first =>
    match Stamp.collectFrom db first.id with
    | .ok stamps => .ok (totalLoop 0 none stamps)
    | .err e => .err e
    | .panicked => .panicked

end MainApp

/-- Specification-side pairwise sum (claim C2's wording): over each
consecutive pair `(prev, curr)` add `curr.timestamp - prev.timestamp`
exactly when `prev` is a check-in and `curr` a check-out. -/
def pairSum : List Stamp → Int
  | [] => 0
  | [_] => 0
  | p :: c :: rest =>
    (if p.in_out = InOut.In ∧ c.in_out = InOut.Out then c.date - p.date else 0) +
      pairSum (c :: rest)

/-- A well-formed store: every persisted cell parses (timestamps and
directions).  This is the state reachable through `Stamp::insert`. -/
def WF (db : Db) : Prop :=
  ∀ r ∈ db, r.datetime.isSome = true ∧ (InOut.fromStr r.in_out).isSome = true

instance (db : Db) : Decidable (WF db) :=
  inferInstanceAs (Decidable (∀ r ∈ db,
    r.datetime.isSome = true ∧ (InOut.fromStr r.in_out).isSome = true))

/-- Identities are contiguous from `a` in table order: the id column
reads `a, a + 1, a + 2, …`. -/
def Contig (db : Db) (a : Int) : Prop :=
  db.map Row.id = (List.range db.length).map (fun k : Nat => a + (k : Int))

instance (db : Db) (a : Int) : Decidable (Contig db a) :=
  inferInstanceAs (Decidable
    (db.map Row.id = (List.range db.length).map (fun k : Nat => a + (k : Int))))

/-- Timestamps are chronological in table order (adjacent rows
non-decreasing). -/
def DatesMono (db : Db) : Prop :=
  List.Chain' (fun r s : Row => r.datetime.getD 0 ≤ s.datetime.getD 0) db

lemma fromStr_display (x : InOut) : InOut.fromStr x.display = some x := by
  cases x <;> decide

lemma get_ok_id {db : Db} {i : Int} {s : Stamp}
    (h : Stamp.get db i = .ok s) : s.id = i := by
  unfold Stamp.get at h
  cases hf : db.find? (fun r => r.id == i) with
  | none => simp [hf] at h
  | some r =>
    simp only [hf] at h
    cases hd : r.datetime with
    | none => simp [hd] at h
    | some d =>
      simp only [hd] at h
      cases hio : InOut.fromStr r.in_out with
      | none => simp [hio] at h
      | some dir =>
        simp only [hio] at h
        injection h with h2
        subst h2
        rfl

lemma get_err_no_row {db : Db} {i : Int}
    (h : Stamp.get db i = .err .noSuchEntry) : ∀ r ∈ db, r.id ≠ i := by
  intro r hr hid
  unfold Stamp.get at h
  cases hf : db.find? (fun x => x.id == i) with
  | none =>
    have := List.find?_eq_none.mp hf r hr
    simp only [beq_iff_eq] at this
    exact this hid
  | some x =>
    simp only [hf] at h
    cases hd : x.datetime with
    | none => simp [hd] at h
    | some d =>
      simp only [hd] at h
      cases hio : InOut.fromStr x.in_out with
      | none => simp [hio] at h
      | some dir => simp [hio] at h

lemma maxId_none_iff {db : Db} : maxId db = none ↔ db = [] := by
  cases db with
  | nil => simp [maxId]
  | cons r rest =>
    simp only [maxId]
    cases maxId rest <;> simp

lemma maxId_ub {db : Db} {m : Int} (h : maxId db = some m) :
    ∀ r ∈ db, r.id ≤ m := by
  induction db generalizing m with
  | nil => simp [maxId] at h
  | cons a l ih =>
    intro r hr
    rcases List.mem_cons.mp hr with hra | hrl
    · subst hra
      unfold maxId at h
      cases hl : maxId l with
      | none => rw [hl] at h; cases h; exact le_refl _
      | some m' => rw [hl] at h; cases h; exact le_max_left _ _
    · unfold maxId at h
      cases hl : maxId l with
      | none =>
        rw [hl] at h
        exact absurd hrl (by simp [List.eq_nil_of_length_eq_zero,
          (maxId_none_iff).mp hl])
      | some m' =>
        rw [hl] at h
        cases h
        exact le_trans (ih hl r hrl) (le_max_right _ _)

lemma maxId_mem {db : Db} {m : Int} (h : maxId db = some m) :
    ∃ r ∈ db, r.id = m := by
  induction db generalizing m with
  | nil => simp [maxId] at h
  | cons a l ih =>
    unfold maxId at h
    cases hl : maxId l with
    | none =>
      rw [hl] at h
      cases h
      exact ⟨a, List.mem_cons_self _ _, rfl⟩
    | some m' =>
      rw [hl] at h
      cases h
      rcases le_or_lt m' a.id with hle | hlt
      · exact ⟨a, List.mem_cons_self _ _, (max_eq_left hle).symm⟩
      · obtain ⟨r, hr, hid⟩ := ih hl
        exact ⟨r, List.mem_cons_of_mem _ hr,
          by rw [hid]; exact (max_eq_right (le_of_lt hlt)).symm⟩

lemma get_wf {db : Db} (hwf : WF db) (i : Int) :
    (∃ s, Stamp.get db i = .ok s) ∨ Stamp.get db i = .err .noSuchEntry := by
  cases hf : db.find? (fun r => r.id == i) with
  | none =>
    right
    unfold Stamp.get
    rw [hf]
  | some r =>
    left
    have hmem := List.mem_of_find?_eq_some hf
    obtain ⟨h1, h2⟩ := hwf r hmem
    obtain ⟨d, hd⟩ := Option.isSome_iff_exists.mp h1
    obtain ⟨dir, hdir⟩ := Option.isSome_iff_exists.mp h2
    refine ⟨⟨i, d, dir⟩, ?_⟩
    unfold Stamp.get
    rw [hf]
    simp [hd, hdir]

lemma afterMatches_iff {r : Row} {t : Int} :
    r.afterMatches t = true ↔ ∃ d, r.datetime = some d ∧ t ≤ d := by
  unfold Row.afterMatches
  cases hd : r.datetime with
  | none => simp
  | some d => simp

lemma get_after_wf {db : Db} (hwf : WF db) (t : Int) :
    (∃ s, Stamp.get_after db t = .ok s) ∨
      Stamp.get_after db t = .err .noSuchEntry := by
  cases hf : db.find? (fun r => r.afterMatches t) with
  | none =>
    right
    unfold Stamp.get_after
    rw [hf]
  | some r =>
    left
    have hmem := List.mem_of_find?_eq_some hf
    have hmatch : r.afterMatches t = true := by
      have := List.find?_some hf
      simpa using this
    obtain ⟨d, hd, _⟩ := afterMatches_iff.mp hmatch
    obtain ⟨_, h2⟩ := hwf r hmem
    obtain ⟨dir, hdir⟩ := Option.isSome_iff_exists.mp h2
    refine ⟨⟨r.id, d, dir⟩, ?_⟩
    unfold Stamp.get_after
    rw [hf]
    simp [hd, hdir]

lemma get_after_ok_matched {db : Db} {t : Int} {s : Stamp}
    (h : Stamp.get_after db t = .ok s) :
    ∃ r ∈ db, r.afterMatches t = true := by
  unfold Stamp.get_after at h
  cases hf : db.find? (fun r => r.afterMatches t) with
  | none => rw [hf] at h; exact absurd h (by simp)
  | some r =>
    refine ⟨r, List.mem_of_find?_eq_some hf, ?_⟩
    have := List.find?_some hf
    simpa using this

lemma collect_spec (db : Db) (hwf : WF db) (i : Int) :
    ∃ l, Stamp.collectFrom db i = .ok l ∧
      (∀ (k : Nat) (hk : k < l.length),
          Stamp.get db (i + (k : Int)) = .ok (l.get ⟨k, hk⟩)) ∧
      Stamp.get db (i + (l.length : Int)) = .err .noSuchEntry := by
  refine Stamp.collectFrom.induct db
    (fun j => ∃ l, Stamp.collectFrom db j = .ok l ∧
      (∀ (k : Nat) (hk : k < l.length),
          Stamp.get db (j + (k : Int)) = .ok (l.get ⟨k, hk⟩)) ∧
      Stamp.get db (j + (l.length : Int)) = .err .noSuchEntry)
    ?_ ?_ ?_ ?_ ?_ i
  · intro j s hs rest hrest ih
    obtain ⟨l, hl, hget, hend⟩ := ih
    have hlr : rest = l := by
      rw [hl] at hrest
      injection hrest with h2
      exact h2.symm
    subst hlr
    refine ⟨s :: rest, ?_, ?_, ?_⟩
    · rw [Stamp.collectFrom, hs, hl]
    · intro k hk
      match k with
      | 0 => simpa using hs
      | k + 1 =>
        have := hget k (by simpa using hk)
        rw [show j + ((k : Nat) + 1 : Nat) = (j + 1) + (k : Int) by push_cast; ring]
        simpa using this
    · rw [show j + ((s :: rest).length : Int) = (j + 1) + (rest.length : Int) by
        simp; ring]
      exact hend
  · intro j s hs e herr ih
    obtain ⟨l, hl, _, _⟩ := ih
    rw [hl] at herr
    exact absurd herr (by simp)
  · intro j s hs hpan ih
    obtain ⟨l, hl, _, _⟩ := ih
    rw [hl] at hpan
    exact absurd hpan (by simp)
  · intro j e hj
    have hns : Stamp.get db j = .err .noSuchEntry := by
      rcases get_wf hwf j with ⟨s, hs⟩ | hns
      · rw [hs] at hj; exact absurd hj (by simp)
      · exact hns
    refine ⟨[], ?_, ?_, ?_⟩
    · rw [Stamp.collectFrom, hj]
    · intro k hk; simp at hk
    · simpa using hns
  · intro j hj
    rcases get_wf hwf j with ⟨s, hs⟩ | hns
    · rw [hs] at hj; exact absurd hj (by simp)
    · rw [hns] at hj; exact absurd hj (by simp)

lemma totalLoop_some (l : List Stamp) : ∀ (total : Int) (p : Stamp),
    App.totalLoop total (some p) l = total + pairSum (p :: l) := by
  induction l with
  | nil =>
    intro total p
    simp [App.totalLoop, pairSum]
  | cons s rest ih =>
    intro total p
    by_cases h : p.in_out = InOut.In ∧ s.in_out = InOut.Out
    · show (if p.in_out = InOut.In ∧ s.in_out = InOut.Out then
          App.totalLoop (total + (s.date - p.date)) (some s) rest
        else App.totalLoop total (some s) rest) = _
      rw [if_pos h, ih]
      show _ = total + ((if p.in_out = InOut.In ∧ s.in_out = InOut.Out then
          s.date - p.date else 0) + pairSum (s :: rest))
      rw [if_pos h]
      ring
    · show (if p.in_out = InOut.In ∧ s.in_out = InOut.Out then
          App.totalLoop (total + (s.date - p.date)) (some s) rest
        else App.totalLoop total (some s) rest) = _
      rw [if_neg h, ih]
      show _ = total + ((if p.in_out = InOut.In ∧ s.in_out = InOut.Out then
          s.date - p.date else 0) + pairSum (s :: rest))
      rw [if_neg h]
      ring

lemma totalLoop_none (l : List Stamp) (total : Int) :
    App.totalLoop total none l = total + pairSum l := by
  cases l with
  | nil => simp [App.totalLoop, pairSum]
  | cons s rest =>
    show App.totalLoop total (some s) rest = _
    rw [totalLoop_some]

/-- Claim C1 is false on the code: on the empty ledger `do_checkout` does
not fail with `AlreadyCheckedOut` — the `if let Some` guard falls through
when `Stamp::last` is `None`, so the call succeeds and appends one
check-out row (the repository's own `test_first_checkout` asserts this
success). -/
theorem checkout_empty_succeeds_cex :
    App.do_checkout [] 5 = AppResult.ok [⟨1, some 5, "Out"⟩] := by
  rfl

/-- Claim C1 (amended): calling checkOut on the empty ledger succeeds and
appends exactly one CheckOut Event bearing identity 1 and the current
timestamp; the empty ledger passes the guard (only a last CheckOut Event
triggers `AlreadyCheckedOut`). -/
theorem checkout_empty_appends_out (now : Int) :
    App.do_checkout [] now = AppResult.ok [Row.ofStamp ⟨1, now, InOut.Out⟩] := by
  rfl

/-- Claim C3: when the max-id row of the ledger parses to a CheckIn
Event, `do_checkin` fails with the AlreadyCheckedIn message and returns
the ledger unchanged; symmetrically, when it parses to a CheckOut Event,
`do_checkout` fails with the AlreadyCheckedOut message and returns the
ledger unchanged. -/
theorem double_op_rejected_unchanged (db : Db) (now m d : Int) (r : Row)
    (hmax : maxId db = some m)
    (hfind : db.find? (fun x => x.id == m) = some r)
    (hdt : r.datetime = some d) :
    (InOut.fromStr r.in_out = some InOut.In →
        App.do_checkin db now = AppResult.err checkinMsg db) ∧
    (InOut.fromStr r.in_out = some InOut.Out →
        App.do_checkout db now = AppResult.err checkoutMsg db) := by
  have hlast : ∀ dir, InOut.fromStr r.in_out = some dir →
      Stamp.last db = .ret (some ⟨m, d, dir⟩) := by
    intro dir hdir
    unfold Stamp.last
    simp only [hmax]
    unfold Stamp.get
    simp only [hfind, hdt, hdir]
  constructor
  · intro hio
    unfold App.do_checkin
    simp only [hlast _ hio]
    simp
  · intro hio
    unfold App.do_checkout
    simp only [hlast _ hio]
    simp

/-- Witness for C3 at a one-row check-in ledger. -/
theorem double_op_rejected_unchanged_witness :
    (InOut.fromStr "In" = some InOut.In →
        App.do_checkin [⟨1, some 0, "In"⟩] 7 =
          AppResult.err checkinMsg [⟨1, some 0, "In"⟩]) ∧
    (InOut.fromStr "In" = some InOut.Out →
        App.do_checkout [⟨1, some 0, "In"⟩] 7 =
          AppResult.err checkoutMsg [⟨1, some 0, "In"⟩]) :=
  double_op_rejected_unchanged [⟨1, some 0, "In"⟩] 7 1 0 ⟨1, some 0, "In"⟩
    (by decide) (by decide) (by decide)

/-- Claim C7: on a ledger whose identities are exactly 1..N, insertion
assigns identity N + 1 (1 on the empty ledger), returns the
identity-bearing Event, and the identities of the new ledger are exactly
1..N+1 (dense, strictly increasing from 1). -/
theorem insert_assigns_next_id (db : Db) (s : Stamp) (N : Nat)
    (hids : ∀ i : Int, (∃ r ∈ db, r.id = i) ↔ 1 ≤ i ∧ i ≤ (N : Int)) :
    (Stamp.insert db s).2 = ⟨(N : Int) + 1, s.date, s.in_out⟩ ∧
    (Stamp.insert db s).1 =
      db ++ [Row.ofStamp ⟨(N : Int) + 1, s.date, s.in_out⟩] ∧
    (∀ i : Int, (∃ r ∈ (Stamp.insert db s).1, r.id = i) ↔
        1 ≤ i ∧ i ≤ (N : Int) + 1) := by
  have step : (Stamp.insert db s).2 = ⟨(N : Int) + 1, s.date, s.in_out⟩ ∧
      (Stamp.insert db s).1 =
        db ++ [Row.ofStamp ⟨(N : Int) + 1, s.date, s.in_out⟩] := by
    rcases Nat.eq_zero_or_pos N with hN | hN
    · have hdb : db = [] := by
        cases hdbe : db with
        | nil => rfl
        | cons a l =>
          exfalso
          have := (hids a.id).mp ⟨a, by rw [hdbe]; exact List.mem_cons_self _ _, rfl⟩
          subst hN
          push_cast at this
          omega
      subst hdb
      subst hN
      constructor <;> simp [Stamp.insert, maxId]
    · have hmax : maxId db = some (N : Int) := by
        obtain ⟨r, hr, hid⟩ := (hids (N : Int)).mpr ⟨by exact_mod_cast hN, le_refl _⟩
        cases hm : maxId db with
        | none =>
          rw [maxId_none_iff] at hm
          subst hm
          simp at hr
        | some m =>
          have hub := maxId_ub hm r hr
          obtain ⟨x, hx, hxid⟩ := maxId_mem hm
          have hmb := (hids m).mp ⟨x, hx, hxid⟩
          have hmn : m = (N : Int) := by omega
          exact congrArg some hmn
      constructor <;> simp [Stamp.insert, hmax]
  refine ⟨step.1, step.2, ?_⟩
  intro i
  rw [step.2]
  constructor
  · rintro ⟨r, hr, hid⟩
    rcases List.mem_append.mp hr with h | h
    · have := (hids i).mp ⟨r, h, hid⟩
      omega
    · simp at h
      subst h
      simp [Row.ofStamp] at hid
      omega
  · intro hi
    by_cases hle : i ≤ (N : Int)
    · obtain ⟨r, hr, hid⟩ := (hids i).mpr ⟨hi.1, hle⟩
      exact ⟨r, List.mem_append_left _ hr, hid⟩
    · refine ⟨Row.ofStamp ⟨(N : Int) + 1, s.date, s.in_out⟩,
        List.mem_append_right _ (by simp), ?_⟩
      simp [Row.ofStamp]
      omega

/-- Witness for C7 on a one-row ledger with identity 1. -/
theorem insert_assigns_next_id_witness :
    (Stamp.insert [⟨1, some 0, "In"⟩] ⟨0, 5, InOut.Out⟩).2 =
      ⟨(1 : Nat) + 1, 5, InOut.Out⟩ ∧
    (Stamp.insert [⟨1, some 0, "In"⟩] ⟨0, 5, InOut.Out⟩).1 =
      [⟨1, some 0, "In"⟩] ++ [Row.ofStamp ⟨(1 : Nat) + 1, 5, InOut.Out⟩] ∧
    (∀ i : Int,
      (∃ r ∈ (Stamp.insert [⟨1, some 0, "In"⟩] ⟨0, 5, InOut.Out⟩).1, r.id = i) ↔
        1 ≤ i ∧ i ≤ ((1 : Nat) : Int) + 1) :=
  insert_assigns_next_id [⟨1, some 0, "In"⟩] ⟨0, 5, InOut.Out⟩ 1
    (by intro i; simp; omega)

/-- Claim C8: inserting any Event into any store and reading it back by
its assigned identity returns an Event with the same timestamp (exact at
persisted precision) and the same direction. -/
theorem insert_get_roundtrip (db : Db) (s : Stamp) :
    Stamp.get (Stamp.insert db s).1 (Stamp.insert db s).2.id =
      .ok ⟨(Stamp.insert db s).2.id, s.date, s.in_out⟩ := by
  cases hm : maxId db with
  | none =>
    have hdb : db = [] := maxId_none_iff.mp hm
    subst hdb
    simp only [Stamp.insert, maxId]
    unfold Stamp.get
    simp [Row.ofStamp, fromStr_display]
  | some m =>
    have hub := maxId_ub hm
    simp only [Stamp.insert, hm]
    unfold Stamp.get
    rw [List.find?_append]
    have hnone : db.find? (fun r => r.id == m + 1) = none := by
      rw [List.find?_eq_none]
      intro x hx
      simp only [beq_iff_eq]
      have := hub x hx
      omega
    rw [hnone]
    simp [Row.ofStamp, fromStr_display]

/-- Claim C9 is false on the code: `Stamp::first` is `get(conn, 1).ok()`,
so a non-empty ledger whose smallest identity is 2 yields `None` instead
of the smallest-identity Event. -/
theorem first_not_smallest_cex :
    Stamp.first [⟨2, some 5, "In"⟩] = .ret none ∧
    ([⟨2, some 5, "In"⟩] : Db) ≠ [] := by
  exact ⟨rfl, by simp⟩

/-- Claim C9 (amended): on a well-formed ledger whose identities are all
≥ 1, `first` returns the Event with identity 1 when a row with identity 1
exists (that Event then has the smallest identity), and `None` when the
ledger is empty or no row has identity 1. -/
theorem first_returns_id_one (db : Db) (hwf : WF db)
    (hpos : ∀ r ∈ db, 1 ≤ r.id) :
    (db = [] → Stamp.first db = .ret none) ∧
    (∀ r ∈ db, r.id = 1 →
        ∃ s, Stamp.first db = .ret (some s) ∧ s.id = 1 ∧
          ∀ x ∈ db, s.id ≤ x.id) ∧
    ((∀ r ∈ db, r.id ≠ 1) → Stamp.first db = .ret none) := by
  refine ⟨?_, ?_, ?_⟩
  · intro h
    subst h
    rfl
  · intro r hr hid
    rcases get_wf hwf 1 with ⟨s, hs⟩ | hns
    · refine ⟨s, ?_, get_ok_id hs, ?_⟩
      · unfold Stamp.first
        rw [hs]
      · intro x hx
        rw [get_ok_id hs]
        exact hpos x hx
    · exact absurd hid (get_err_no_row hns r hr)
  · intro hnone
    have hns : Stamp.get db 1 = .err .noSuchEntry := by
      rcases get_wf hwf 1 with ⟨s, hs⟩ | hns
      · exact absurd (get_ok_mem hs) (by
          rintro ⟨x, hx, hid⟩
          exact hnone x hx hid)
      · exact hns
    unfold Stamp.first
    rw [hns]

/-- Witness for C9 (amended) at a one-row ledger with identity 1. -/
theorem first_returns_id_one_witness :
    (([⟨1, some 3, "In"⟩] : Db) = [] →
        Stamp.first [⟨1, some 3, "In"⟩] = .ret none) ∧
    (∀ r ∈ ([⟨1, some 3, "In"⟩] : Db), r.id = 1 →
        ∃ s, Stamp.first [⟨1, some 3, "In"⟩] = .ret (some s) ∧ s.id = 1 ∧
          ∀ x ∈ ([⟨1, some 3, "In"⟩] : Db), s.id ≤ x.id) ∧
    ((∀ r ∈ ([⟨1, some 3, "In"⟩] : Db), r.id ≠ 1) →
        Stamp.first [⟨1, some 3, "In"⟩] = .ret none) :=
  first_returns_id_one [⟨1, some 3, "In"⟩] (by decide) (by decide)

lemma totalLoop_eq : ∀ (l : List Stamp) (total : Int) (p : Option Stamp),
    MainApp.totalLoop total p l = App.totalLoop total p l
  | [], _, _ => rfl
  | s :: rest, total, none => totalLoop_eq rest total (some s)
  | s :: rest, total, some q => by
    show (if q.in_out = InOut.In ∧ s.in_out = InOut.Out then
        MainApp.totalLoop (total + (s.date - q.date)) (some s) rest
      else MainApp.totalLoop total (some s) rest) =
      (if q.in_out = InOut.In ∧ s.in_out = InOut.Out then
        App.totalLoop (total + (s.date - q.date)) (some s) rest
      else App.totalLoop total (some s) rest)
    by_cases h : q.in_out = InOut.In ∧ s.in_out = InOut.Out
    · rw [if_pos h, if_pos h, totalLoop_eq rest _ _]
    · rw [if_neg h, if_neg h, totalLoop_eq rest _ _]

/-- Claim C10: the duplicated aggregation logic is equivalent — the
`get_total_from` of `main.rs` and the `get_total_from` of `app.rs` agree
on every ledger and boundary instant. -/
theorem main_app_total_equal (db : Db) (t : Int) :
    MainApp.get_total_from db t = App.get_total_from db t := by
  unfold MainApp.get_total_from App.get_total_from
  cases Stamp.get_after db t with
  | ok first =>
    dsimp only
    cases Stamp.collectFrom db first.id with
    | ok stamps => simp [totalLoop_eq]
    | err e => rfl
    | panicked => rfl
  | err e => rfl
  | panicked => rfl

/-- Claim C5 is false on the code: a malformed timestamp does make
`Stamp::get` return a parse error, but `StampIterator::next` silently
swallows that error (`if let Ok`), ending iteration as if the ledger
cleanly ran out (skipping the later well-formed row 3), and a malformed
direction makes `Stamp::get` panic (`.unwrap()`) instead of surfacing an
error to the caller. -/
theorem malformed_swallowed_cex :
    Stamp.get [⟨1, some 0, "In"⟩, ⟨2, none, "Out"⟩, ⟨3, some 9, "Out"⟩] 2 =
      .err .parseError ∧
    Stamp.collectFrom [⟨1, some 0, "In"⟩, ⟨2, none, "Out"⟩, ⟨3, some 9, "Out"⟩] 1 =
      .ok [⟨1, 0, InOut.In⟩] ∧
    Stamp.get [⟨1, some 0, "bogus"⟩] 1 = Outcome.panicked := by
  refine ⟨by decide, ?_, by decide⟩
  have h1 : Stamp.get [⟨1, some 0, "In"⟩, ⟨2, none, "Out"⟩, ⟨3, some 9, "Out"⟩] 1 =
      .ok ⟨1, 0, InOut.In⟩ := by decide
  have h2 : Stamp.get [⟨1, some 0, "In"⟩, ⟨2, none, "Out"⟩, ⟨3, some 9, "Out"⟩]
      ((1 : Int) + 1) = .err .parseError := by decide
  rw [Stamp.collectFrom, h1, Stamp.collectFrom, h2]

/-- Claim C5 (amended): a persisted record whose timestamp fails to parse
makes `Stamp::get` return a `ParseError` to its caller; a record whose
direction fails to parse makes `Stamp::get` panic rather than return an
error; and `StampIterator` silently swallows every `Stamp::get` error —
any `Err`, not just `NoSuchEntry`, ends iteration as a normal stop. -/
theorem malformed_record_behavior (db : Db) (i : Int) (r : Row)
    (hfind : db.find? (fun x => x.id == i) = some r) :
    (r.datetime = none → Stamp.get db i = .err .parseError) ∧
    (∀ d : Int, r.datetime = some d → InOut.fromStr r.in_out = none →
        Stamp.get db i = Outcome.panicked) ∧
    (∀ e : DbError, Stamp.get db i = .err e →
        Stamp.collectFrom db i = .ok []) := by
  refine ⟨?_, ?_, ?_⟩
  · intro hd
    unfold Stamp.get
    simp [hfind, hd]
  · intro d hd hio
    unfold Stamp.get
    simp [hfind, hd, hio]
  · intro e he
    rw [Stamp.collectFrom, he]

/-- Witness for C5 (amended) at a one-row ledger with an unparseable
timestamp. -/
theorem malformed_record_behavior_witness :
    ((⟨1, none, "In"⟩ : Row).datetime = none →
        Stamp.get [⟨1, none, "In"⟩] 1 = .err .parseError) ∧
    (∀ d : Int, (⟨1, none, "In"⟩ : Row).datetime = some d →
        InOut.fromStr (⟨1, none, "In"⟩ : Row).in_out = none →
        Stamp.get [⟨1, none, "In"⟩] 1 = Outcome.panicked) ∧
    (∀ e : DbError, Stamp.get [⟨1, none, "In"⟩] 1 = .err e →
        Stamp.collectFrom [⟨1, none, "In"⟩] 1 = .ok []) :=
  malformed_record_behavior [⟨1, none, "In"⟩] 1 ⟨1, none, "In"⟩ (by decide)

/-- Claim C2: on a well-formed ledger the aggregation never fails —
whatever the direction pattern, it returns some total; that total equals
the pairwise specification sum over the sequence the iterator visits from
the `get_after` seed; and when no event has timestamp ≥ `from`, the total
is zero. -/
theorem get_total_from_pair_sum (db : Db) (t : Int) (hwf : WF db) :
    ∃ res : Int, App.get_total_from db t = .ok res ∧
      (∀ s0, Stamp.get_after db t = .ok s0 →
        ∀ l, Stamp.collectFrom db s0.id = .ok l → res = pairSum l) ∧
      ((∀ r ∈ db, ∀ d : Int, r.datetime = some d → d < t) → res = 0) := by
  rcases get_after_wf hwf t with ⟨s0, hs0⟩ | hnone
  · obtain ⟨l, hl, -, -⟩ := collect_spec db hwf s0.id
    refine ⟨pairSum l, ?_, ?_, ?_⟩
    · unfold App.get_total_from
      rw [hs0]
      dsimp only
      rw [hl]
      dsimp only
      rw [totalLoop_none]
      simp
    · intro s0' h0' l' hl'
      rw [hs0] at h0'
      injection h0' with h0'
      subst h0'
      rw [hl] at hl'
      injection hl' with hl'
      subst hl'
      rfl
    · intro hlt
      exfalso
      obtain ⟨r, hr, hm⟩ := get_after_ok_matched hs0
      obtain ⟨d, hd, htd⟩ := afterMatches_iff.mp hm
      exact absurd htd (not_le.mpr (hlt r hr d hd))
  · refine ⟨0, ?_, ?_, fun _ => rfl⟩
    · unfold App.get_total_from
      rw [hnone]
    · intro s0 h0
      rw [hnone] at h0
      exact absurd h0 (by simp)

/-- Witness for C2 on a two-row In/Out ledger. -/
theorem get_total_from_pair_sum_witness :
    ∃ res : Int,
      App.get_total_from [⟨1, some 10, "In"⟩, ⟨2, some 25, "Out"⟩] 0 = .ok res ∧
      (∀ s0, Stamp.get_after [⟨1, some 10, "In"⟩, ⟨2, some 25, "Out"⟩] 0 = .ok s0 →
        ∀ l, Stamp.collectFrom [⟨1, some 10, "In"⟩, ⟨2, some 25, "Out"⟩] s0.id =
          .ok l → res = pairSum l) ∧
      ((∀ r ∈ ([⟨1, some 10, "In"⟩, ⟨2, some 25, "Out"⟩] : Db),
          ∀ d : Int, r.datetime = some d → d < 0) → res = 0) :=
  get_total_from_pair_sum [⟨1, some 10, "In"⟩, ⟨2, some 25, "Out"⟩] 0 (by decide)

lemma contig_cons {r : Row} {rest : Db} {a : Int} :
    Contig (r :: rest) a ↔ r.id = a ∧ Contig rest (a + 1) := by
  unfold Contig
  rw [List.length_cons, List.range_succ_eq_map, List.map_cons, List.map_cons,
    List.map_map]
  have hmaps : (List.range rest.length).map
        ((fun k : Nat => a + (k : Int)) ∘ Nat.succ) =
      (List.range rest.length).map (fun k : Nat => (a + 1) + (k : Int)) := by
    apply List.map_congr_left
    intro k hk
    simp only [Function.comp]
    push_cast
    ring
  rw [hmaps]
  simp

lemma contig_mem {db : Db} {a : Int} (hc : Contig db a) :
    ∀ r ∈ db, ∃ k : Nat, k < db.length ∧ r.id = a + (k : Int) := by
  induction db generalizing a with
  | nil => simp
  | cons x rest ih =>
    obtain ⟨hx, hrest⟩ := contig_cons.mp hc
    intro r hr
    rcases List.mem_cons.mp hr with h | h
    · exact ⟨0, by simp, by subst h; simpa using hx⟩
    · obtain ⟨k, hk, hid⟩ := ih hrest r h
      refine ⟨k + 1, by simpa using Nat.succ_lt_succ hk, ?_⟩
      rw [hid]
      push_cast
      ring

lemma contig_get_id {db : Db} {a : Int} (hc : Contig db a) :
    ∀ (j : Nat) (hj : j < db.length), (db.get ⟨j, hj⟩).id = a + (j : Int) := by
  induction db generalizing a with
  | nil => intro j hj; simp at hj
  | cons x rest ih =>
    obtain ⟨hx, hrest⟩ := contig_cons.mp hc
    intro j hj
    match j with
    | 0 => simpa using hx
    | j + 1 =>
      have hrec := ih hrest j (by simpa using Nat.lt_of_succ_lt_succ hj)
      show (rest.get ⟨j, _⟩).id = _
      rw [hrec]
      push_cast
      ring

lemma contig_find?_lt {db : Db} {a : Int} (hc : Contig db a) :
    ∀ (j : Nat) (hj : j < db.length),
      db.find? (fun r => r.id == a + (j : Int)) = some (db.get ⟨j, hj⟩) := by
  induction db generalizing a with
  | nil => intro j hj; simp at hj
  | cons x rest ih =>
    obtain ⟨hx, hrest⟩ := contig_cons.mp hc
    intro j hj
    match j with
    | 0 =>
      apply List.find?_cons_of_pos
      simp [hx]
    | j + 1 =>
      rw [List.find?_cons_of_neg]
      · have heq : a + ((j + 1 : Nat) : Int) = (a + 1) + (j : Int) := by
          push_cast
          ring
        simp only [heq]
        exact ih hrest j (by simpa using Nat.lt_of_succ_lt_succ hj)
      · simp only [hx, beq_iff_eq]
        push_cast
        omega

lemma contig_find?_ge {db : Db} {a : Int} (hc : Contig db a) (j : Nat)
    (hj : db.length ≤ j) :
    db.find? (fun r => r.id == a + (j : Int)) = none := by
  rw [List.find?_eq_none]
  intro x hx
  obtain ⟨k, hk, hid⟩ := contig_mem hc x hx
  simp only [beq_iff_eq, hid]
  intro hEq
  have : (k : Int) = (j : Int) := by omega
  omega

lemma contig_get_ok {db : Db} {a : Int} (hwf : WF db) (hc : Contig db a)
    (j : Nat) (hj : j < db.length) :
    Stamp.get db (a + (j : Int)) = .ok (Row.toStamp (db.get ⟨j, hj⟩)) := by
  unfold Stamp.get
  rw [contig_find?_lt hc j hj]
  have hmem := List.get_mem db j hj
  obtain ⟨h1, h2⟩ := hwf _ hmem
  obtain ⟨d, hd⟩ := Option.isSome_iff_exists.mp h1
  obtain ⟨dir, hdir⟩ := Option.isSome_iff_exists.mp h2
  simp only [hd, hdir]
  unfold Row.toStamp
  rw [hd, hdir]
  simp only [Option.getD_some, Outcome.ok.injEq]
  rw [contig_get_id hc j hj]

lemma contig_get_none {db : Db} {a : Int} (hc : Contig db a) (j : Nat)
    (hj : db.length ≤ j) :
    Stamp.get db (a + (j : Int)) = .err .noSuchEntry := by
  unfold Stamp.get
  rw [contig_find?_ge hc j hj]

lemma collect_contig {db : Db} {a : Int} (hwf : WF db) (hc : Contig db a)
    (j : Nat) :
    Stamp.collectFrom db (a + (j : Int)) =
      .ok ((db.drop j).map Row.toStamp) := by
  obtain ⟨l, hl, hget, hend⟩ := collect_spec db hwf (a + (j : Int))
  have hlen1 : db.length ≤ j + l.length := by
    by_contra hlt
    push_neg at hlt
    have hok := contig_get_ok hwf hc (j + l.length) hlt
    rw [show a + ((j + l.length : Nat) : Int) =
        (a + (j : Int)) + (l.length : Int) by push_cast; ring] at hok
    rw [hend] at hok
    exact absurd hok (by simp)
  have hlen2 : ∀ k : Nat, k < l.length → j + k < db.length := by
    intro k hk
    have hok := hget k hk
    obtain ⟨r, hr, hid⟩ := get_ok_mem hok
    obtain ⟨k', hk', hid'⟩ := contig_mem hc r hr
    have : (j : Int) + (k : Int) = (k' : Int) := by omega
    omega
  have hlen : l.length = db.length - j := by
    rcases Nat.eq_zero_or_pos l.length with h0 | h0
    · omega
    · have := hlen2 (l.length - 1) (by omega)
      omega
  rw [hl]
  congr 1
  apply List.ext_get
  · simp [hlen]
  · intro n h1 h2
    have hok := hget n h1
    have hjn : j + n < db.length := hlen2 n h1
    have hok2 := contig_get_ok hwf hc (j + n) hjn
    rw [show a + ((j + n : Nat) : Int) = (a + (j : Int)) + (n : Int) by
      push_cast; ring] at hok2
    rw [hok] at hok2
    injection hok2 with hok2
    rw [hok2]
    simp [List.get_eq_getElem, List.getElem_map, List.getElem_drop]

/-- Claim C6: on a well-formed ledger, iterating from any start identity
visits Events whose identities are consecutive from the start, stops
exactly at the first absent identity without error, and for a ledger
whose identities present from the start are exactly `a..a+N-1` it visits
exactly N Events. -/
theorem iteration_visits_contiguous (db : Db) (hwf : WF db) (a : Int) :
    ∃ l, Stamp.collectFrom db a = .ok l ∧
      (∀ (k : Nat) (hk : k < l.length), (l.get ⟨k, hk⟩).id = a + (k : Int)) ∧
      (∀ r ∈ db, r.id ≠ a + (l.length : Int)) ∧
      (∀ N : Nat, (∀ k : Nat, (∃ r ∈ db, r.id = a + (k : Int)) ↔ k < N) →
        l.length = N) := by
  obtain ⟨l, hl, hget, hend⟩ := collect_spec db hwf a
  refine ⟨l, hl, ?_, ?_, ?_⟩
  · intro k hk
    exact get_ok_id (hget k hk)
  · exact get_err_no_row hend
  · intro N hN
    have hub : ∀ k, k < l.length → k < N := by
      intro k hk
      exact (hN k).mp (get_ok_mem (hget k hk))
    have hnb : ¬ (l.length < N) := by
      intro hlt
      obtain ⟨r, hr, hid⟩ := (hN l.length).mpr hlt
      exact get_err_no_row hend r hr hid
    rcases Nat.lt_trichotomy l.length N with h | h | h
    · exact absurd h hnb
    · exact h
    · exact absurd (hub N h) (lt_irrefl N)

/-- Witness for C6 at a two-row contiguous ledger starting at identity 1. -/
theorem iteration_visits_contiguous_witness :
    ∃ l, Stamp.collectFrom [⟨1, some 0, "In"⟩, ⟨2, some 5, "Out"⟩] 1 = .ok l ∧
      (∀ (k : Nat) (hk : k < l.length), (l.get ⟨k, hk⟩).id = 1 + (k : Int)) ∧
      (∀ r ∈ ([⟨1, some 0, "In"⟩, ⟨2, some 5, "Out"⟩] : Db),
        r.id ≠ 1 + (l.length : Int)) ∧
      (∀ N : Nat,
        (∀ k : Nat, (∃ r ∈ ([⟨1, some 0, "In"⟩, ⟨2, some 5, "Out"⟩] : Db),
          r.id = 1 + (k : Int)) ↔ k < N) → l.length = N) :=
  iteration_visits_contiguous [⟨1, some 0, "In"⟩, ⟨2, some 5, "Out"⟩]
    (by decide) 1

lemma findIdx_len_of_none {l : Db} {p : Row → Bool} (h : l.find? p = none) :
    l.findIdx p = l.length := by
  induction l with
  | nil => simp
  | cons x rest ih =>
    by_cases hp : p x
    · rw [List.find?_cons_of_pos _ hp] at h
      exact absurd h (by simp)
    · rw [List.find?_cons_of_neg _ hp] at h
      rw [List.findIdx_cons]
      rw [Bool.not_eq_true] at hp
      simp [hp, ih h]

lemma find?_some_findIdx {l : Db} {p : Row → Bool} {r : Row}
    (h : l.find? p = some r) :
    ∃ (j : Nat) (hj : j < l.length), l.findIdx p = j ∧ l.get ⟨j, hj⟩ = r := by
  induction l with
  | nil => simp at h
  | cons x rest ih =>
    by_cases hp : p x
    · rw [List.find?_cons_of_pos _ hp] at h
      injection h with h
      exact ⟨0, by simp, by simp [List.findIdx_cons, hp], h⟩
    · rw [List.find?_cons_of_neg _ hp] at h
      obtain ⟨j, hj, hfi, hg⟩ := ih h
      refine ⟨j + 1, by simpa using Nat.succ_lt_succ hj, ?_, ?_⟩
      · rw [List.findIdx_cons]
        rw [Bool.not_eq_true] at hp
        simp [hp, hfi]
      · exact hg

lemma total_drop {db : Db} {a : Int} (hwf : WF db) (hc : Contig db a)
    (t : Int) :
    App.get_total_from db t =
      .ok (pairSum ((db.drop
        (db.findIdx (fun r => r.afterMatches t))).map Row.toStamp)) := by
  cases hf : db.find? (fun r => r.afterMatches t) with
  | none =>
    have hga : Stamp.get_after db t = .err .noSuchEntry := by
      unfold Stamp.get_after
      rw [hf]
    unfold App.get_total_from
    rw [hga, findIdx_len_of_none hf, List.drop_length]
    rfl
  | some r =>
    obtain ⟨j, hj, hfi, hg⟩ := find?_some_findIdx hf
    have hmem := List.mem_of_find?_eq_some hf
    have hmatch : r.afterMatches t = true := by
      simpa using List.find?_some hf
    obtain ⟨d, hd, htd⟩ := afterMatches_iff.mp hmatch
    obtain ⟨-, h2⟩ := hwf r hmem
    obtain ⟨dir, hdir⟩ := Option.isSome_iff_exists.mp h2
    have hga : Stamp.get_after db t = .ok ⟨r.id, d, dir⟩ := by
      unfold Stamp.get_after
      rw [hf]
      simp [hd, hdir]
    have hrid : r.id = a + (j : Int) := by
      rw [← hg]
      exact (contig_get_id hc j hj).symm ▸ rfl
    unfold App.get_total_from
    rw [hga]
    dsimp only
    rw [hrid, collect_contig hwf hc j]
    dsimp only
    rw [totalLoop_none, hfi]
    simp

lemma pairSum_cons_le (x : Stamp) (l : List Stamp)
    (h : ∀ y ∈ l.head?, x.date ≤ y.date) :
    pairSum l ≤ pairSum (x :: l) := by
  cases l with
  | nil => simp [pairSum]
  | cons y rest =>
    show pairSum (y :: rest) ≤
      (if x.in_out = InOut.In ∧ y.in_out = InOut.Out then y.date - x.date
        else 0) + pairSum (y :: rest)
    have hy : x.date ≤ y.date := h y (by simp)
    by_cases hio : x.in_out = InOut.In ∧ y.in_out = InOut.Out
    · rw [if_pos hio]
      omega
    · rw [if_neg hio]
      omega

lemma pairSum_drop_succ (sl : List Stamp)
    (hm : List.Chain' (fun p q : Stamp => p.date ≤ q.date) sl) (j : Nat) :
    pairSum (sl.drop (j + 1)) ≤ pairSum (sl.drop j) := by
  by_cases hj : j < sl.length
  · rw [List.drop_eq_getElem_cons hj]
    apply pairSum_cons_le
    intro y hy
    by_cases hj1 : j + 1 < sl.length
    · rw [List.drop_eq_getElem_cons hj1] at hy
      simp at hy
      rw [List.getElem?_eq_getElem hj1] at hy
      injection hy with hy
      subst hy
      have := List.chain'_iff_get.mp hm j (by omega)
      simpa [List.get_eq_getElem] using this
    · rw [List.drop_eq_nil_of_le (by omega)] at hy
      simp at hy
  · have h1 : sl.drop j = [] := List.drop_eq_nil_of_le (by omega)
    have h2 : sl.drop (j + 1) = [] := List.drop_eq_nil_of_le (by omega)
    rw [h1, h2]

lemma pairSum_drop_antitone (sl : List Stamp)
    (hm : List.Chain' (fun p q : Stamp => p.date ≤ q.date) sl)
    (j1 j2 : Nat) (h : j1 ≤ j2) :
    pairSum (sl.drop j2) ≤ pairSum (sl.drop j1) := by
  induction j2, h using Nat.le_induction with
  | base => exact le_refl _
  | succ n hmn ih => exact le_trans (pairSum_drop_succ sl hm n) ih

lemma datesMono_map {db : Db} (hm : DatesMono db) :
    List.Chain' (fun p q : Stamp => p.date ≤ q.date) (db.map Row.toStamp) := by
  rw [List.chain'_map]
  exact hm

lemma findIdx_after_mono (db : Db) (t1 t2 : Int) (h : t1 ≤ t2) :
    db.findIdx (fun r => r.afterMatches t1) ≤
      db.findIdx (fun r => r.afterMatches t2) := by
  induction db with
  | nil => simp
  | cons x rest ih =>
    rw [List.findIdx_cons, List.findIdx_cons]
    by_cases h1 : x.afterMatches t1 = true
    · simp [h1]
    · have h2 : ¬ x.afterMatches t2 = true := by
        intro hx
        obtain ⟨d, hd, htd⟩ := afterMatches_iff.mp hx
        exact h1 (afterMatches_iff.mpr ⟨d, hd, le_trans h htd⟩)
      rw [Bool.not_eq_true] at h1 h2
      simp only [h1, h2, cond_false]
      exact Nat.succ_le_succ ih

/-- Claim C4 is false as stated: with an out-of-order (never clamped)
timestamp pair, moving the window start later can increase the total —
here total(0) = -100 while total(101) = 0, although 0 ≤ 101. -/
theorem total_not_antitone_cex :
    ((0 : Int) ≤ 101) ∧
    App.get_total_from [⟨1, some 100, "In"⟩, ⟨2, some 0, "Out"⟩] 0 =
      .ok (-100) ∧
    App.get_total_from [⟨1, some 100, "In"⟩, ⟨2, some 0, "Out"⟩] 101 =
      .ok 0 ∧
    ¬ ((0 : Int) ≤ -100) := by
  refine ⟨by norm_num, ?_, by decide, by norm_num⟩
  have hga : Stamp.get_after [⟨1, some 100, "In"⟩, ⟨2, some 0, "Out"⟩] 0 =
      .ok ⟨1, 100, InOut.In⟩ := by decide
  have h1 : Stamp.get [⟨1, some 100, "In"⟩, ⟨2, some 0, "Out"⟩] 1 =
      .ok ⟨1, 100, InOut.In⟩ := by decide
  have h2 : Stamp.get [⟨1, some 100, "In"⟩, ⟨2, some 0, "Out"⟩]
      ((1 : Int) + 1) = .ok ⟨2, 0, InOut.Out⟩ := by decide
  have h3 : Stamp.get [⟨1, some 100, "In"⟩, ⟨2, some 0, "Out"⟩]
      ((1 : Int) + 1 + 1) = .err .noSuchEntry := by decide
  unfold App.get_total_from
  rw [hga]
  dsimp only
  rw [Stamp.collectFrom, h1, Stamp.collectFrom, h2, Stamp.collectFrom, h3]
  dsimp only
  decide

/-- Claim C4 (amended): on a well-formed ledger with contiguous
identities and chronologically non-decreasing timestamps (the
normal-operation invariant), the aggregator total is monotonically
non-increasing as the window start moves later. -/
theorem total_antitone_of_sorted (db : Db) (a t1 t2 : Int) (hwf : WF db)
    (hc : Contig db a) (hm : DatesMono db) (h12 : t1 ≤ t2) :
    ∃ x1 x2 : Int, App.get_total_from db t1 = .ok x1 ∧
      App.get_total_from db t2 = .ok x2 ∧ x2 ≤ x1 := by
  refine ⟨_, _, total_drop hwf hc t1, total_drop hwf hc t2, ?_⟩
  have hchain := datesMono_map hm
  have hidx := findIdx_after_mono db t1 t2 h12
  have hmono := pairSum_drop_antitone (db.map Row.toStamp) hchain
    (db.findIdx (fun r => r.afterMatches t1))
    (db.findIdx (fun r => r.afterMatches t2)) hidx
  rw [List.map_drop, List.map_drop]
  exact hmono

/-- Witness for C4 (amended) at a sorted two-row ledger. -/
theorem total_antitone_of_sorted_witness :
    ∃ x1 x2 : Int,
      App.get_total_from [⟨1, some 10, "In"⟩, ⟨2, some 20, "Out"⟩] 0 =
        .ok x1 ∧
      App.get_total_from [⟨1, some 10, "In"⟩, ⟨2, some 20, "Out"⟩] 15 =
        .ok x2 ∧ x2 ≤ x1 :=
  total_antitone_of_sorted [⟨1, some 10, "In"⟩, ⟨2, some 20, "Out"⟩] 1 0 15
    (by decide) (by decide) (by simp [DatesMono]) (by norm_num)

end WTime
